import Mathlib

/-!
# Verification of the hybrid retrieval and rank-fusion engine

Shallow embedding of `src/clashgpt/app/tools/rag_tool.py` (together with the
relevant configuration constants of `src/clashgpt/app/settings.py`).

Modelling conventions:
* Python floats are modelled as exact rationals (`ℚ`); every score produced by
  the code under study is a finite sum of reciprocals of small integers, and
  all claims are about exact values and comparisons of those sums.
* The two insertion-ordered dictionaries `rrf_scores : dict[str, float]` and
  `chunk_map : dict[str, SearchResult]` of `_reciprocal_rank_fusion` share
  their key set and their insertion order (entries are inserted into both at
  the same moment); they are modelled as a single insertion-ordered
  association list of `RrfEntry` records carrying the key, the accumulated
  score and the first `SearchResult` stored for that key.
* Python's stable `sorted(..., key=lambda x: x[1], reverse=True)` is modelled
  by `List.insertionSort` with the relation `rrfRel e₁ e₂ := e₂.score ≤ e₁.score`;
  both are stable descending sorts, and a stable descending sort of a given
  sequence is unique.
* The external world (embedding service, MongoDB indexes) is modelled by a
  `BranchOutcome` oracle per branch: either the ranked candidate list the
  index would stream for this query, or one of the classified failures that
  the `except` clauses of the code absorb.  The `except`/`return []` blocks
  make each branch a total function of its oracle, which is exactly how they
  are embedded here.
* `match_count` reaches `search_knowledge_base` as an arbitrary integer
  (`ℤ`) so that the `match_count <= 0` validation branch is expressible.
* The emptiness test `not query.strip()` holds iff the query consists only
  of whitespace; it is embedded as an all-whitespace check over the
  character list of the query.
-/

namespace ClashGPT

/-- `SearchResult` dataclass of `rag_tool.py`: one retrieved chunk.
`similarity` is the (branch-native, later fused) score; `metadata` is an
opaque mapping, modelled as an association list. -/
structure SearchResult where
  chunk_id : String
  document_id : String
  content : String
  similarity : ℚ
  metadata : List (String × String) := []
  document_title : String := ""
  document_source : String := ""
deriving DecidableEq, Repr

/-- One entry of the insertion-ordered fusion state of
`_reciprocal_rank_fusion`: the key of `rrf_scores`/`chunk_map`, the
accumulated RRF score (`rrf_scores[chunk_id]`) and the first result stored
for the key (`chunk_map[chunk_id]`). -/
structure RrfEntry where
  chunk_id : String
  score : ℚ
  first : SearchResult
deriving DecidableEq, Repr

/-- Keys of the fusion state, in insertion order (the iteration order of the
Python dictionaries). -/
def entryIds (es : List RrfEntry) : List String := es.map RrfEntry.chunk_id

/-- `rrf_scores[chunk_id] += rrf_score` on the insertion-ordered state: the
entry keeps its position, only its score grows. -/
def bumpScore (c : String) (v : ℚ) : List RrfEntry → List RrfEntry
  | [] => []
  | e :: es => if e.chunk_id = c then { e with score := e.score + v } :: es
               else e :: bumpScore c v es

/-- Body of the inner `for rank, result in enumerate(results)` loop of
`_reciprocal_rank_fusion`: contribute `1 / (k + rank)` to the chunk's
accumulated score, creating the entry (with the current result as its
`chunk_map` value) when the key is new. -/
def processPair (k : ℕ) (es : List RrfEntry) (p : ℕ × SearchResult) : List RrfEntry :=
  let v : ℚ := 1 / (k + p.1)
  if p.2.chunk_id ∈ es.map RrfEntry.chunk_id then bumpScore p.2.chunk_id v es
  else es ++ [⟨p.2.chunk_id, v, p.2⟩]

/-- Folding the loop body over a list of `(rank, result)` pairs. -/
def processPairs (k : ℕ) (es : List RrfEntry) (ps : List (ℕ × SearchResult)) : List RrfEntry :=
  ps.foldl (processPair k) es

/-- The `(rank, result)` pairs visited by the two nested loops of
`_reciprocal_rank_fusion`, in visiting order: `enumerate` of every branch
list, branch lists in the given order. -/
def branchPairs (search_results_list : List (List SearchResult)) : List (ℕ × SearchResult) :=
  search_results_list.flatMap List.enum

/-- The fusion state after both loops of `_reciprocal_rank_fusion`. -/
def fusionEntries (k : ℕ) (search_results_list : List (List SearchResult)) : List RrfEntry :=
  processPairs k [] (branchPairs search_results_list)

/-- Comparison used by `sorted(rrf_scores.items(), key=lambda x: x[1],
reverse=True)`: descending by accumulated score. -/
def rrfRel (e1 e2 : RrfEntry) : Prop := e2.score ≤ e1.score

instance : DecidableRel rrfRel := fun e1 e2 => inferInstanceAs (Decidable (e2.score ≤ e1.score))

instance : IsTotal RrfEntry rrfRel := ⟨fun a b => le_total b.score a.score⟩

instance : IsTrans RrfEntry rrfRel := ⟨fun _ _ _ h1 h2 => le_trans h2 h1⟩

/-- The merged `SearchResult` built for one sorted entry: the stored first
occurrence with its `similarity` replaced by the combined RRF score. -/
def toMerged (e : RrfEntry) : SearchResult := { e.first with similarity := e.score }

/-- `_reciprocal_rank_fusion(search_results_list, k=60)`:
accumulate `1/(k+rank)` per occurrence into an insertion-ordered score map,
sort the entries by score descending (stable), and emit each chunk's first
stored result with the fused score. -/
def _reciprocal_rank_fusion (search_results_list : List (List SearchResult))
    (k : ℕ := 60) : List SearchResult :=
  ((fusionEntries k search_results_list).insertionSort rrfRel).map toMerged

/-- First entry of the fusion state with the given key (the association-list
reading of `chunk_id in rrf_scores` / `rrf_scores[chunk_id]`). -/
def findEntry (c : String) : List RrfEntry → Option RrfEntry
  | [] => none
  | e :: es => if e.chunk_id = c then some e else findEntry c es

/-- Accumulated score of a key in a fusion state (`0` when absent). -/
def scoreOf (c : String) (es : List RrfEntry) : ℚ :=
  ((findEntry c es).map RrfEntry.score).getD 0

/-- The stored first occurrence for a key in a fusion state. -/
def firstOf (c : String) (es : List RrfEntry) : Option SearchResult :=
  (findEntry c es).map RrfEntry.first

/-- Fused RRF score that `_reciprocal_rank_fusion` (with constant `k = 60`)
assigns to a chunk id. -/
def fusedScore (c : String) (search_results_list : List (List SearchResult)) : ℚ :=
  scoreOf c (fusionEntries 60 search_results_list)

/-- Sum of the `1/(k+rank)` contributions of a chunk id over a list of
`(rank, result)` pairs. -/
def rrfSum (k : ℕ) (c : String) (ps : List (ℕ × SearchResult)) : ℚ :=
  (ps.map (fun p => if p.2.chunk_id = c then (1 : ℚ) / (k + p.1) else 0)).sum

/-- First result with the given chunk id in a list. -/
def firstWithId (c : String) : List SearchResult → Option SearchResult
  | [] => none
  | r :: rs => if r.chunk_id = c then some r else firstWithId c rs

/-- Chunk ids of all branch results in processing order. -/
def allIds (search_results_list : List (List SearchResult)) : List String :=
  (search_results_list.flatten).map SearchResult.chunk_id

/-- Index of the first occurrence of an element (length of the list when
absent). -/
def firstIndex (c : String) : List String → ℕ
  | [] => 0
  | x :: xs => if x = c then 0 else firstIndex c xs + 1

/-- Dictionary-style key insertion: append the key iff it is new. -/
def insertId (acc : List String) (c : String) : List String :=
  if c ∈ acc then acc else acc ++ [c]

/-- Keys that a run over `cs` appends after `seen`, in first-appearance
order. -/
def newIds (seen : List String) : List String → List String
  | [] => []
  | c :: cs => if c ∈ seen then newIds seen cs else c :: newIds (seen ++ [c]) cs

/-- `numCandidates` of the `$vectorSearch` stage of `_semantic_search`: the
candidate pool requested from the approximate vector index (a fixed
constant in the source). -/
def semanticNumCandidates : ℕ := 100

/-- Outcome of one branch's interaction with the outside world: either the
ranked candidate list its index would stream, or one of the failures that
the branch's `except` clauses classify and absorb. -/
inductive BranchOutcome where
  | ok (index_results : List SearchResult)
  | embeddingAuthError
  | embeddingRateLimitError
  | embeddingTimeoutError
  | embeddingNetworkError
  | embeddingAPIError
  | embeddingDataError
  | mongoConnectionError
  | mongoServiceError
  | operationFailure
  | otherError
deriving DecidableEq, Repr

/-- Whether the outcome is a successful index response. -/
def BranchOutcome.isOk : BranchOutcome → Bool
  | .ok _ => true
  | _ => false

/-- `_semantic_search(query, match_count)`: on success the `$vectorSearch`
stage draws at most `match_count` hits from a pool of `numCandidates = 100`
candidates of the ranked index, and the cursor is drained with a final
`[:match_count]`; every classified failure (embedding auth / rate limit /
timeout / network / API / data error, MongoDB connection or service error,
`OperationFailure`, or any other exception) is caught, logged, and turned
into the empty list. -/
def _semantic_search (outcome : BranchOutcome) (match_count : ℕ) : List SearchResult :=
  match outcome with
  | .ok index_results =>
      (((index_results.take semanticNumCandidates).take match_count)).take match_count
  | _ => []

/-- `_text_search(query, match_count)`: on success the `$search` pipeline is
cut by `{"$limit": match_count * 2}` and the cursor is drained with
`[:match_count * 2]`; every caught failure becomes the empty list. -/
def _text_search (outcome : BranchOutcome) (match_count : ℕ) : List SearchResult :=
  match outcome with
  | .ok index_results => (index_results.take (match_count * 2)).take (match_count * 2)
  | _ => []

/-- `_hybrid_search(query, match_count)`: run both branches with
`fetch_count = match_count * 2`, return `[]` when both contribute nothing,
otherwise fuse with RRF (`k = 60`) and keep the first `match_count` merged
results. -/
def _hybrid_search (semOutcome textOutcome : BranchOutcome) (match_count : ℕ) :
    List SearchResult :=
  let fetch_count := match_count * 2
  let semantic_list := _semantic_search semOutcome fetch_count
  let text_list := _text_search textOutcome fetch_count
  if semantic_list.isEmpty && text_list.isEmpty then []
  else (_reciprocal_rank_fusion [semantic_list, text_list] 60).take match_count

/-- The fused, sorted, untruncated list that `_hybrid_search` builds before
`merged_results[:match_count]`. -/
def hybridMerged (semOutcome textOutcome : BranchOutcome) (match_count : ℕ) :
    List SearchResult :=
  _reciprocal_rank_fusion
    [_semantic_search semOutcome (match_count * 2),
     _text_search textOutcome (match_count * 2)] 60

/-- `settings.max_match_count` of `settings.py`. -/
def max_match_count : ℕ := 50

/-- `min(max(1, match_count), settings.max_match_count)` of
`search_knowledge_base`. -/
def clamped_match_count (match_count : ℤ) : ℤ :=
  min (max 1 match_count) (max_match_count : ℤ)

/-- The distinct shapes of string that `search_knowledge_base` returns:
the three validation error messages, the no-results message, and a
formatted transcript of the results. -/
inductive FacadeResponse where
  | emptyQueryError
  | nonPositiveCountError
  | unknownTypeError
  | noResults
  | found (results : List SearchResult)
deriving DecidableEq, Repr

/-- Whether a response is one of the three validation errors, rejected
before any branch runs. -/
def isValidationError : FacadeResponse → Bool
  | .emptyQueryError => true
  | .nonPositiveCountError => true
  | .unknownTypeError => true
  | _ => false

/-- `not query.strip()` of Python: the string contains no non-whitespace
character. -/
def isBlank (query : String) : Bool :=
  query.data.all fun ch => ch = ' ' || ch = '\t' || ch = '\n' || ch = '\r'

/-- `search_knowledge_base(query, match_count, search_type)`: the three
fail-fast validations in source order, then the clamp
`min(max(1, match_count), settings.max_match_count)`, then dispatch to the
branch selected by `search_type`, then the no-results / formatted-results
split.  The two branch oracles stand for the outside world; a validation
error is returned before either is consulted. -/
def search_knowledge_base (query : String) (match_count : ℤ) (search_type : String)
    (semOutcome textOutcome : BranchOutcome) : FacadeResponse :=
  if isBlank query then .emptyQueryError
  else if match_count ≤ 0 then .nonPositiveCountError
  else if search_type ≠ "hybrid" ∧ search_type ≠ "semantic" ∧ search_type ≠ "text" then
    .unknownTypeError
  else
    let mc : ℕ := (clamped_match_count match_count).toNat
    let results :=
      if search_type = "semantic" then _semantic_search semOutcome mc
      else if search_type = "text" then _text_search textOutcome mc
      else _hybrid_search semOutcome textOutcome mc
    if results.isEmpty then .noResults
    else .found results

/-- One formatted block of the transcript (the two-decimal float rendering
of the source is abstracted as plain rational rendering). -/
def format_result (i : ℕ) (r : SearchResult) : String :=
  "\n--- Document " ++ toString i ++ ": " ++ r.document_title ++
    " (relevance: " ++ toString r.similarity ++ ") ---\n" ++ r.content ++
    (if r.document_source ≠ "" then "\nSource: " ++ r.document_source else "")

/-- The string actually returned by `search_knowledge_base` for each
response shape. -/
def render_response : FacadeResponse → String
  | .emptyQueryError =>
      "Knowledge base search requires a non-empty query. Ask the user to clarify their question."
  | .nonPositiveCountError =>
      "Knowledge base search requires a positive match_count. Use a value between 1 and 50."
  | .unknownTypeError => "Unknown search_type. Use hybrid, semantic, or text."
  | .noResults => "No relevant information found in the knowledge base."
  | .found results =>
      "Found " ++ toString results.length ++ " relevant documents:\n" ++
        String.join ((results.enum).map fun p => format_result (p.1 + 1) p.2)

/-- Sample chunk used by concrete scenarios. -/
def mkChunk (c : String) (body : String) : SearchResult :=
  { chunk_id := c, document_id := "doc-" ++ c, content := body, similarity := 9/10,
    metadata := [("k", c)], document_title := "title-" ++ c, document_source := "src-" ++ c }

/-- Chunk A of the concrete fusion scenario. -/
def resA : SearchResult := mkChunk "A" "alpha"

/-- Chunk B as returned by the vector branch. -/
def resB : SearchResult := mkChunk "B" "beta"

/-- Chunk C of the concrete fusion scenario. -/
def resC : SearchResult := mkChunk "C" "gamma"

/-- Chunk B as returned by the text branch (same id, different payload). -/
def resBtext : SearchResult := mkChunk "B" "beta from text"

/-- Chunk D of the concrete fusion scenario. -/
def resD : SearchResult := mkChunk "D" "delta"

/-- A fifth sample chunk. -/
def resE : SearchResult := mkChunk "E" "epsilon"

/-- The merged result emitted for `resA` when it is the sole entry of its
branch (fused score `1/60`). -/
def mergedA : SearchResult := { mkChunk "A" "alpha" with similarity := 1 / 60 }

/-- The merged result emitted for `resE` when it is the sole entry of its
branch (fused score `1/60`). -/
def mergedE : SearchResult := { mkChunk "E" "epsilon" with similarity := 1 / 60 }

/-! ## Basic lemmas about the fusion state -/

theorem entryIds_bumpScore (c : String) (v : ℚ) (es : List RrfEntry) :
    entryIds (bumpScore c v es) = entryIds es := by
  induction es with
  | nil => rfl
  | cons e es ih =>
    simp only [entryIds] at ih ⊢
    by_cases h : e.chunk_id = c
    · simp [bumpScore, h]
    · simp [bumpScore, h, ih]

theorem findEntry_bumpScore_self (c : String) (v : ℚ) (es : List RrfEntry) :
    findEntry c (bumpScore c v es)
      = (findEntry c es).map (fun e => { e with score := e.score + v }) := by
  induction es with
  | nil => rfl
  | cons e es ih =>
    by_cases h : e.chunk_id = c <;> simp [bumpScore, findEntry, h, ih]

theorem findEntry_bumpScore_ne (c' c : String) (v : ℚ) (es : List RrfEntry)
    (h : c' ≠ c) : findEntry c' (bumpScore c v es) = findEntry c' es := by
  have hcc : ¬c = c' := fun hx => h hx.symm
  induction es with
  | nil => rfl
  | cons e es ih =>
    by_cases hc : e.chunk_id = c
    · have hne : e.chunk_id ≠ c' := by rw [hc]; exact fun hx => h hx.symm
      simp [bumpScore, findEntry, hc, hne, hcc]
    · by_cases hc' : e.chunk_id = c' <;> simp [bumpScore, findEntry, hc, hc', ih, h]

theorem findEntry_append_of_some {c : String} {es : List RrfEntry} {e : RrfEntry}
    (es' : List RrfEntry) (h : findEntry c es = some e) :
    findEntry c (es ++ es') = some e := by
  induction es with
  | nil => simp [findEntry] at h
  | cons e0 es ih =>
    by_cases h0 : e0.chunk_id = c <;> simp [findEntry, h0] at h ⊢
    · exact h
    · exact ih h

theorem findEntry_append_of_none {c : String} {es : List RrfEntry}
    (es' : List RrfEntry) (h : findEntry c es = none) :
    findEntry c (es ++ es') = findEntry c es' := by
  induction es with
  | nil => rfl
  | cons e0 es ih =>
    by_cases h0 : e0.chunk_id = c <;> simp [findEntry, h0] at h ⊢
    exact ih h

theorem findEntry_eq_none_iff (c : String) (es : List RrfEntry) :
    findEntry c es = none ↔ c ∉ entryIds es := by
  induction es with
  | nil => simp [findEntry, entryIds]
  | cons e es ih =>
    by_cases h : e.chunk_id = c
    · simp [findEntry, entryIds, h]
    · simp [findEntry, entryIds, h] at ih ⊢
      rw [ih]
      exact ⟨fun hx => ⟨fun hy => h hy.symm, hx⟩, fun hx => hx.2⟩

theorem findEntry_isSome_of_mem {c : String} {es : List RrfEntry}
    (h : c ∈ entryIds es) : ∃ e, findEntry c es = some e := by
  rcases he : findEntry c es with _ | e
  · exact absurd ((findEntry_eq_none_iff c es).mp he) (by simp [h])
  · exact ⟨e, rfl⟩

theorem processPairs_nil (k : ℕ) (es : List RrfEntry) : processPairs k es [] = es := rfl

theorem processPairs_cons (k : ℕ) (es : List RrfEntry) (p : ℕ × SearchResult)
    (ps : List (ℕ × SearchResult)) :
    processPairs k es (p :: ps) = processPairs k (processPair k es p) ps := rfl

theorem scoreOf_processPair (k : ℕ) (es : List RrfEntry) (p : ℕ × SearchResult)
    (c : String) :
    scoreOf c (processPair k es p)
      = scoreOf c es + (if p.2.chunk_id = c then (1 : ℚ) / (k + p.1) else 0) := by
  unfold processPair
  by_cases hmem : p.2.chunk_id ∈ entryIds es
  · simp only [entryIds] at hmem
    simp only [hmem, if_pos, if_true]
    by_cases hc : p.2.chunk_id = c
    · subst hc
      obtain ⟨e, he⟩ := findEntry_isSome_of_mem (by simpa [entryIds] using hmem)
      simp [scoreOf, findEntry_bumpScore_self, he]
    · have : c ≠ p.2.chunk_id := fun hx => hc hx.symm
      simp [scoreOf, findEntry_bumpScore_ne _ _ _ _ this, hc]
  · simp only [entryIds] at hmem
    simp only [hmem, if_neg, if_false]
    have hnone' : findEntry p.2.chunk_id es = none :=
      (findEntry_eq_none_iff _ _).mpr (by simpa [entryIds] using hmem)
    by_cases hc : p.2.chunk_id = c
    · subst hc
      simp [scoreOf, findEntry_append_of_none _ hnone', findEntry, hnone']
    · rcases he : findEntry c es with _ | e
      · simp [scoreOf, findEntry_append_of_none _ he, findEntry, hc, he]
      · simp [scoreOf, findEntry_append_of_some _ he, hc, he]

theorem rrfSum_nil (k : ℕ) (c : String) : rrfSum k c [] = 0 := rfl

theorem rrfSum_cons (k : ℕ) (c : String) (p : ℕ × SearchResult)
    (ps : List (ℕ × SearchResult)) :
    rrfSum k c (p :: ps)
      = (if p.2.chunk_id = c then (1 : ℚ) / (k + p.1) else 0) + rrfSum k c ps := by
  simp [rrfSum]

theorem rrfSum_append (k : ℕ) (c : String) (ps qs : List (ℕ × SearchResult)) :
    rrfSum k c (ps ++ qs) = rrfSum k c ps + rrfSum k c qs := by
  simp [rrfSum]

theorem scoreOf_processPairs (k : ℕ) (ps : List (ℕ × SearchResult))
    (es : List RrfEntry) (c : String) :
    scoreOf c (processPairs k es ps) = scoreOf c es + rrfSum k c ps := by
  induction ps generalizing es with
  | nil => simp [processPairs_nil, rrfSum_nil]
  | cons p ps ih =>
    rw [processPairs_cons, ih, scoreOf_processPair, rrfSum_cons]
    ring

/-! ## First-occurrence tracking -/

theorem firstOf_processPair_of_some {c : String} {es : List RrfEntry} {r : SearchResult}
    (k : ℕ) (p : ℕ × SearchResult) (h : firstOf c es = some r) :
    firstOf c (processPair k es p) = some r := by
  unfold processPair
  obtain ⟨e, he, hr⟩ : ∃ e, findEntry c es = some e ∧ e.first = r := by
    rcases hx : findEntry c es with _ | e <;> simp [firstOf, hx] at h ⊢
    exact h
  by_cases hmem : p.2.chunk_id ∈ es.map RrfEntry.chunk_id
  · simp only [hmem, if_true]
    by_cases hc : p.2.chunk_id = c
    · subst hc; simp [firstOf, findEntry_bumpScore_self, he, hr]
    · have : c ≠ p.2.chunk_id := fun hx => hc hx.symm
      simp [firstOf, findEntry_bumpScore_ne _ _ _ _ this, he, hr]
  · simp only [hmem, if_false]
    simp [firstOf, findEntry_append_of_some _ he, hr]

theorem firstOf_processPair_of_none {c : String} {es : List RrfEntry}
    (k : ℕ) (p : ℕ × SearchResult) (h : firstOf c es = none) :
    firstOf c (processPair k es p)
      = if p.2.chunk_id = c then some p.2 else none := by
  have hnone : findEntry c es = none := by
    rcases hx : findEntry c es with _ | e
    · rfl
    · simp [firstOf, hx] at h
  unfold processPair
  by_cases hmem : p.2.chunk_id ∈ es.map RrfEntry.chunk_id
  · simp only [hmem, if_true]
    by_cases hc : p.2.chunk_id = c
    · subst hc
      exact absurd ((findEntry_eq_none_iff _ _).mp hnone) (by simpa [entryIds] using hmem)
    · have : c ≠ p.2.chunk_id := fun hx => hc hx.symm
      simp [firstOf, findEntry_bumpScore_ne _ _ _ _ this, hnone, hc]
  · simp only [hmem, if_false]
    by_cases hc : p.2.chunk_id = c <;>
      simp [firstOf, findEntry_append_of_none _ hnone, findEntry, hc]

theorem firstOf_processPairs_of_some {c : String} {es : List RrfEntry} {r : SearchResult}
    (k : ℕ) (ps : List (ℕ × SearchResult)) (h : firstOf c es = some r) :
    firstOf c (processPairs k es ps) = some r := by
  induction ps generalizing es with
  | nil => exact h
  | cons p ps ih => exact ih (firstOf_processPair_of_some k p h)

theorem firstOf_processPairs_of_none {c : String} {es : List RrfEntry}
    (k : ℕ) (ps : List (ℕ × SearchResult)) (h : firstOf c es = none) :
    firstOf c (processPairs k es ps) = firstWithId c (ps.map Prod.snd) := by
  induction ps generalizing es with
  | nil => simpa [firstWithId] using h
  | cons p ps ih =>
    rw [processPairs_cons]
    by_cases hc : p.2.chunk_id = c
    · have h1 : firstOf c (processPair k es p) = some p.2 := by
        rw [firstOf_processPair_of_none k p h, if_pos hc]
      rw [firstOf_processPairs_of_some k ps h1]
      simp [firstWithId, hc]
    · have h1 : firstOf c (processPair k es p) = none := by
        rw [firstOf_processPair_of_none k p h, if_neg hc]
      rw [ih h1]
      simp [firstWithId, hc]

/-! ## Evolution of the key set -/

theorem entryIds_processPair (k : ℕ) (es : List RrfEntry) (p : ℕ × SearchResult) :
    entryIds (processPair k es p) = insertId (entryIds es) p.2.chunk_id := by
  simp only [processPair]
  by_cases hmem : p.2.chunk_id ∈ es.map RrfEntry.chunk_id
  · rw [if_pos hmem, entryIds_bumpScore, insertId,
      if_pos (show p.2.chunk_id ∈ entryIds es from hmem)]
  · rw [if_neg hmem, insertId, if_neg (show p.2.chunk_id ∉ entryIds es from hmem)]
    simp [entryIds]

theorem entryIds_processPairs (k : ℕ) (ps : List (ℕ × SearchResult))
    (es : List RrfEntry) :
    entryIds (processPairs k es ps)
      = (ps.map (fun p => p.2.chunk_id)).foldl insertId (entryIds es) := by
  induction ps generalizing es with
  | nil => rfl
  | cons p ps ih =>
    rw [processPairs_cons, ih, List.map_cons, List.foldl_cons, entryIds_processPair]

theorem foldl_insertId (cs : List String) (seen : List String) :
    cs.foldl insertId seen = seen ++ newIds seen cs := by
  induction cs generalizing seen with
  | nil => simp [newIds]
  | cons c cs ih =>
    by_cases h : c ∈ seen
    · simp [List.foldl_cons, insertId, h, newIds, ih]
    · simp only [List.foldl_cons, insertId, h, if_neg, if_false, newIds, ih]
      simp [ih]

theorem nodup_append_newIds (cs : List String) (seen : List String)
    (h : seen.Nodup) : (seen ++ newIds seen cs).Nodup := by
  induction cs generalizing seen with
  | nil => simpa [newIds]
  | cons c cs ih =>
    by_cases hc : c ∈ seen
    · simpa [newIds, hc] using ih seen h
    · have h' : (seen ++ [c]).Nodup := by simp [List.nodup_append, h, hc]
      have := ih (seen ++ [c]) h'
      simpa [newIds, hc] using this

theorem mem_newIds (c : String) (cs : List String) (seen : List String) :
    c ∈ newIds seen cs ↔ c ∈ cs ∧ c ∉ seen := by
  induction cs generalizing seen with
  | nil => simp [newIds]
  | cons x cs ih =>
    by_cases hx : x ∈ seen
    · rw [newIds, if_pos hx, ih]
      constructor
      · exact fun h => ⟨List.mem_cons_of_mem _ h.1, h.2⟩
      · rintro ⟨h1, h2⟩
        rcases List.mem_cons.mp h1 with h1 | h1
        · exact absurd (h1 ▸ hx) h2
        · exact ⟨h1, h2⟩
    · rw [newIds, if_neg hx]
      constructor
      · intro h
        rcases List.mem_cons.mp h with h | h
        · exact ⟨h ▸ List.mem_cons_self _ _, h ▸ hx⟩
        · have := (ih (seen ++ [x])).mp h
          refine ⟨List.mem_cons_of_mem _ this.1, fun hc => this.2 ?_⟩
          simp [hc]
      · rintro ⟨h1, h2⟩
        rcases List.mem_cons.mp h1 with h1 | h1
        · exact h1 ▸ List.mem_cons_self _ _
        · by_cases hcx : c = x
          · exact hcx ▸ List.mem_cons_self _ _
          · refine List.mem_cons_of_mem _ ((ih (seen ++ [x])).mpr ⟨h1, ?_⟩)
            simp [h2, hcx]

theorem newIds_of_nodup (cs : List String) (seen : List String)
    (h : cs.Nodup) (hdisj : ∀ c ∈ cs, c ∉ seen) : newIds seen cs = cs := by
  induction cs generalizing seen with
  | nil => rfl
  | cons c cs ih =>
    have hc : c ∉ seen := hdisj c (List.mem_cons_self _ _)
    rw [newIds, if_neg hc]
    congr 1
    refine ih (seen ++ [c]) (List.Nodup.of_cons h) ?_
    intro x hx
    have hxc : x ≠ c := fun he => (List.nodup_cons.mp h).1 (he ▸ hx)
    simp [hdisj x (List.mem_cons_of_mem _ hx), hxc]

/-! ## First-appearance indices and ordered pairs -/

theorem firstIndex_cons (c x : String) (xs : List String) :
    firstIndex c (x :: xs) = if x = c then 0 else firstIndex c xs + 1 := rfl

theorem firstIndex_inj {c1 c2 : String} {l : List String}
    (h1 : c1 ∈ l) (h2 : c2 ∈ l) (h : firstIndex c1 l = firstIndex c2 l) : c1 = c2 := by
  induction l with
  | nil => cases h1
  | cons x xs ih =>
    by_cases e1 : x = c1
    · by_cases e2 : x = c2
      · exact e1.symm.trans e2
      · rw [firstIndex_cons, firstIndex_cons, if_pos e1, if_neg e2] at h
        exact absurd h (by omega)
    · by_cases e2 : x = c2
      · rw [firstIndex_cons, firstIndex_cons, if_neg e1, if_pos e2] at h
        exact absurd h (by omega)
      · rw [firstIndex_cons, firstIndex_cons, if_neg e1, if_neg e2] at h
        have h1' : c1 ∈ xs := by
          rcases List.mem_cons.mp h1 with hx | hx
          · exact absurd hx.symm e1
          · exact hx
        have h2' : c2 ∈ xs := by
          rcases List.mem_cons.mp h2 with hx | hx
          · exact absurd hx.symm e2
          · exact hx
        exact ih h1' h2' (by omega)

theorem firstIndex_lt_of_sublist {c1 c2 : String} {l : List String}
    (hn : l.Nodup) (hs : [c1, c2].Sublist l) :
    firstIndex c1 l < firstIndex c2 l := by
  induction l with
  | nil => cases hs
  | cons x xs ih =>
    rcases List.nodup_cons.mp hn with ⟨hx, hxs⟩
    cases hs with
    | cons _ h' =>
      have hc1 : c1 ∈ xs := h'.subset (by simp)
      have hc2 : c2 ∈ xs := h'.subset (by simp)
      have e1 : x ≠ c1 := fun he => hx (he ▸ hc1)
      have e2 : x ≠ c2 := fun he => hx (he ▸ hc2)
      simpa [firstIndex_cons, e1, e2] using ih hxs h'
    | cons₂ _ h' =>
      have hc2 : c2 ∈ xs := h'.subset (by simp)
      have e2 : ¬c1 = c2 := fun he => hx (he ▸ hc2)
      rw [firstIndex_cons, firstIndex_cons, if_pos rfl, if_neg e2]
      omega

theorem sublist_pair_of_mem {α : Type} {l : List α} {a b : α}
    (ha : a ∈ l) (hb : b ∈ l) (hne : a ≠ b) :
    [a, b].Sublist l ∨ [b, a].Sublist l := by
  induction l with
  | nil => cases ha
  | cons x xs ih =>
    by_cases hax : a = x
    · subst hax
      have hbx : b ∈ xs := by
        rcases List.mem_cons.mp hb with h | h
        · exact absurd h.symm hne
        · exact h
      exact Or.inl (List.cons_sublist_cons.mpr (List.singleton_sublist.mpr hbx))
    · by_cases hbx : b = x
      · subst hbx
        have hax' : a ∈ xs := by
          rcases List.mem_cons.mp ha with h | h
          · exact absurd h hax
          · exact h
        exact Or.inr (List.cons_sublist_cons.mpr (List.singleton_sublist.mpr hax'))
      · have ha' : a ∈ xs := by
          rcases List.mem_cons.mp ha with h | h
          · exact absurd h hax
          · exact h
        have hb' : b ∈ xs := by
          rcases List.mem_cons.mp hb with h | h
          · exact absurd h hbx
          · exact h
        rcases ih ha' hb' with h | h
        · exact Or.inl (h.cons x)
        · exact Or.inr (h.cons x)

theorem firstIndex_newIds {c1 c2 : String} (hne : c1 ≠ c2) :
    ∀ (cs seen : List String), c1 ∉ seen → c2 ∉ seen → c1 ∈ cs → c2 ∈ cs →
      firstIndex c1 cs < firstIndex c2 cs →
      firstIndex c1 (newIds seen cs) < firstIndex c2 (newIds seen cs) := by
  intro cs
  induction cs with
  | nil => intro seen _ _ h1; cases h1
  | cons x xs ih =>
    intro seen hs1 hs2 h1 h2 hlt
    by_cases hx : x ∈ seen
    · rw [newIds, if_pos hx]
      have e1 : x ≠ c1 := fun he => hs1 (he ▸ hx)
      have e2 : x ≠ c2 := fun he => hs2 (he ▸ hx)
      have h1' : c1 ∈ xs := by
        rcases List.mem_cons.mp h1 with h | h
        · exact absurd h.symm e1
        · exact h
      have h2' : c2 ∈ xs := by
        rcases List.mem_cons.mp h2 with h | h
        · exact absurd h.symm e2
        · exact h
      simp only [firstIndex_cons, e1, e2, if_neg, if_false] at hlt
      exact ih seen hs1 hs2 h1' h2' (by omega)
    · rw [newIds, if_neg hx]
      by_cases e1 : x = c1
      · subst e1
        have e2 : x ≠ c2 := hne
        simp [firstIndex_cons, e2]
      · by_cases e2 : x = c2
        · subst e2
          simp [firstIndex_cons, e1] at hlt
        · have h1' : c1 ∈ xs := by
            rcases List.mem_cons.mp h1 with h | h
            · exact absurd h.symm e1
            · exact h
          have h2' : c2 ∈ xs := by
            rcases List.mem_cons.mp h2 with h | h
            · exact absurd h.symm e2
            · exact h
          have hs1' : c1 ∉ seen ++ [x] := by
            simp only [List.mem_append, List.mem_singleton]
            rintro (h | h)
            · exact hs1 h
            · exact e1 h.symm
          have hs2' : c2 ∉ seen ++ [x] := by
            simp only [List.mem_append, List.mem_singleton]
            rintro (h | h)
            · exact hs2 h
            · exact e2 h.symm
          simp only [firstIndex_cons, e1, e2, if_neg, if_false] at hlt
          have := ih (seen ++ [x]) hs1' hs2' h1' h2' (by omega)
          simpa [firstIndex_cons, e1, e2] using this

/-! ## Shape of the fused entry list -/

theorem branchPairs_nil : branchPairs [] = [] := rfl

theorem branchPairs_cons (l : List SearchResult) (ls : List (List SearchResult)) :
    branchPairs (l :: ls) = l.enum ++ branchPairs ls := by
  simp [branchPairs]

theorem branchPairs_map_snd (ls : List (List SearchResult)) :
    (branchPairs ls).map Prod.snd = ls.flatten := by
  induction ls with
  | nil => rfl
  | cons l ls ih => simp [branchPairs_cons, ih]

theorem branchPairs_ids (ls : List (List SearchResult)) :
    (branchPairs ls).map (fun p => p.2.chunk_id) = allIds ls := by
  have : (branchPairs ls).map (fun p => p.2.chunk_id)
      = ((branchPairs ls).map Prod.snd).map SearchResult.chunk_id := by
    simp [List.map_map]
  rw [this, branchPairs_map_snd, allIds]

theorem entryIds_fusionEntries (k : ℕ) (ls : List (List SearchResult)) :
    entryIds (fusionEntries k ls) = newIds [] (allIds ls) := by
  rw [fusionEntries, entryIds_processPairs, branchPairs_ids]
  simpa [entryIds] using foldl_insertId (allIds ls) []

theorem nodup_entryIds_fusionEntries (k : ℕ) (ls : List (List SearchResult)) :
    (entryIds (fusionEntries k ls)).Nodup := by
  rw [entryIds_fusionEntries]
  simpa using nodup_append_newIds (allIds ls) [] (by simp)

theorem first_chunk_id_fusionEntries (k : ℕ) (ls : List (List SearchResult)) :
    ∀ e ∈ fusionEntries k ls, e.first.chunk_id = e.chunk_id := by
  have hbump : ∀ (c : String) (v : ℚ) (es : List RrfEntry),
      (∀ e ∈ es, e.first.chunk_id = e.chunk_id) →
      ∀ e ∈ bumpScore c v es, e.first.chunk_id = e.chunk_id := by
    intro c v es
    induction es with
    | nil => intro _ e he; cases he
    | cons e0 es ih =>
      intro h e he
      by_cases h0 : e0.chunk_id = c <;> simp only [bumpScore, h0, if_pos, if_neg,
        if_true, if_false] at he
      · rcases List.mem_cons.mp he with he | he
        · subst he; simpa [← h0] using h e0 (List.mem_cons_self _ _)
        · exact h e (List.mem_cons_of_mem _ he)
      · rcases List.mem_cons.mp he with he | he
        · subst he; exact h e (List.mem_cons_self _ _)
        · exact ih (fun x hx => h x (List.mem_cons_of_mem _ hx)) e he
  have hstep : ∀ (ps : List (ℕ × SearchResult)) (es : List RrfEntry),
      (∀ e ∈ es, e.first.chunk_id = e.chunk_id) →
      ∀ e ∈ processPairs k es ps, e.first.chunk_id = e.chunk_id := by
    intro ps
    induction ps with
    | nil => intro es h; exact h
    | cons p ps ih =>
      intro es h
      rw [processPairs_cons]
      refine ih _ ?_
      intro e he
      unfold processPair at he
      by_cases hmem : p.2.chunk_id ∈ es.map RrfEntry.chunk_id
      · rw [if_pos hmem] at he
        exact hbump _ _ es h e he
      · rw [if_neg hmem] at he
        rcases List.mem_append.mp he with he | he
        · exact h e he
        · simp at he
          subst he
          rfl
  exact hstep _ [] (by intro e he; cases he)

theorem findEntry_eq_some_self {es : List RrfEntry} {e : RrfEntry}
    (hn : (entryIds es).Nodup) (he : e ∈ es) : findEntry e.chunk_id es = some e := by
  induction es with
  | nil => cases he
  | cons e0 es ih =>
    have hn0 : e0.chunk_id ∉ entryIds es ∧ (entryIds es).Nodup := by
      rw [entryIds, List.map_cons, List.nodup_cons] at hn
      exact ⟨hn.1, hn.2⟩
    rcases List.mem_cons.mp he with h | h
    · subst h; simp [findEntry]
    · have hne : e0.chunk_id ≠ e.chunk_id := by
        intro hx
        exact hn0.1 (hx ▸ List.mem_map_of_mem RrfEntry.chunk_id h)
      rw [findEntry, if_neg hne]
      exact ih hn0.2 h

/-! ## Rank sums over a single branch list -/

theorem rrfSum_enumFrom_zero {c : String} (k : ℕ) :
    ∀ (l : List SearchResult) (n : ℕ), c ∉ l.map SearchResult.chunk_id →
      rrfSum k c (l.enumFrom n) = 0 := by
  intro l
  induction l with
  | nil => intro n _; rfl
  | cons r rs ih =>
    intro n h
    simp only [List.map_cons, List.mem_cons] at h
    push_neg at h
    have hr : r.chunk_id ≠ c := fun hx => h.1 hx.symm
    rw [List.enumFrom, rrfSum_cons, if_neg hr, ih (n + 1) h.2]
    ring

theorem rrfSum_enumFrom_single {c : String} (k : ℕ) :
    ∀ (l : List SearchResult) (n j : ℕ) (hj : j < l.length),
      (l.map SearchResult.chunk_id).Nodup → (l.get ⟨j, hj⟩).chunk_id = c →
      rrfSum k c (l.enumFrom n) = 1 / ((k : ℚ) + n + j) := by
  intro l
  induction l with
  | nil => intro n j hj; cases hj
  | cons r rs ih =>
    intro n j hj hn hc
    rw [List.map_cons, List.nodup_cons] at hn
    obtain ⟨hr, hrs⟩ := hn
    cases j with
    | zero =>
      simp only [List.get] at hc
      rw [List.enumFrom, rrfSum_cons, if_pos hc,
        rrfSum_enumFrom_zero k rs (n + 1) (by rw [← hc]; exact hr)]
      push_cast
      ring
    | succ j' =>
      have hj' : j' < rs.length := by simpa using hj
      have hc' : (rs.get ⟨j', hj'⟩).chunk_id = c := hc
      have hmem : c ∈ rs.map SearchResult.chunk_id := by
        rw [← hc']
        exact List.mem_map_of_mem SearchResult.chunk_id (rs.get_mem _ _)
      have hrne : r.chunk_id ≠ c := fun hx => hr (hx ▸ hmem)
      rw [List.enumFrom, rrfSum_cons, if_neg hrne, ih (n + 1) j' hj' hrs hc']
      push_cast
      ring_nf

theorem branchPairs_two (l1 l2 : List SearchResult) :
    branchPairs [l1, l2] = l1.enum ++ l2.enum := by
  simp [branchPairs]

theorem fusedScore_two (l1 l2 : List SearchResult) (c : String) :
    fusedScore c [l1, l2] = rrfSum 60 c l1.enum + rrfSum 60 c l2.enum := by
  rw [fusedScore, fusionEntries, scoreOf_processPairs, branchPairs_two, rrfSum_append]
  simp [scoreOf, findEntry]

/-! ## Shape of the merged output list -/

theorem scoreOf_eq_of_mem {es : List RrfEntry} {e : RrfEntry}
    (hn : (entryIds es).Nodup) (he : e ∈ es) : scoreOf e.chunk_id es = e.score := by
  simp [scoreOf, findEntry_eq_some_self hn he]

theorem length_rrf (lists : List (List SearchResult)) (k : ℕ) :
    (_reciprocal_rank_fusion lists k).length = (fusionEntries k lists).length := by
  simp [_reciprocal_rank_fusion, List.length_insertionSort]

theorem length_fusionEntries_of_nodup (k : ℕ) (ls : List (List SearchResult))
    (h : (allIds ls).Nodup) : (fusionEntries k ls).length = (allIds ls).length := by
  have h1 : (entryIds (fusionEntries k ls)).length = (fusionEntries k ls).length := by
    simp [entryIds]
  rw [← h1, entryIds_fusionEntries, newIds_of_nodup _ _ h (by simp)]

theorem ids_rrf (lists : List (List SearchResult)) (k : ℕ) :
    (_reciprocal_rank_fusion lists k).map SearchResult.chunk_id
      = (List.insertionSort rrfRel (fusionEntries k lists)).map RrfEntry.chunk_id := by
  rw [_reciprocal_rank_fusion, List.map_map]
  refine List.map_congr_left ?_
  intro e he
  have he' : e ∈ fusionEntries k lists :=
    (List.perm_insertionSort rrfRel _).subset he
  exact first_chunk_id_fusionEntries k lists e he'

theorem nodup_ids_rrf (lists : List (List SearchResult)) (k : ℕ) :
    ((_reciprocal_rank_fusion lists k).map SearchResult.chunk_id).Nodup := by
  rw [ids_rrf]
  have hperm : List.Perm
      ((List.insertionSort rrfRel (fusionEntries k lists)).map RrfEntry.chunk_id)
      (entryIds (fusionEntries k lists)) :=
    (List.perm_insertionSort rrfRel _).map _
  exact hperm.nodup_iff.mpr (nodup_entryIds_fusionEntries k lists)

theorem pairwise_rrf (lists : List (List SearchResult)) (k : ℕ) :
    (_reciprocal_rank_fusion lists k).Pairwise
      (fun a b => b.similarity ≤ a.similarity) := by
  have hs := List.sorted_insertionSort rrfRel (fusionEntries k lists)
  rw [_reciprocal_rank_fusion, List.pairwise_map]
  exact List.Pairwise.imp (fun h => h) hs

theorem stable_of_tie (lists : List (List SearchResult)) {a b : SearchResult}
    (hab : [a, b].Sublist (_reciprocal_rank_fusion lists 60))
    (hsim : a.similarity = b.similarity) (hne : a.chunk_id ≠ b.chunk_id) :
    firstIndex a.chunk_id (allIds lists) < firstIndex b.chunk_id (allIds lists) := by
  rw [_reciprocal_rank_fusion] at hab
  obtain ⟨l', hl's, hl'e⟩ := List.sublist_map_iff.mp hab
  obtain ⟨ea, eb, rfl⟩ : ∃ ea eb, l' = [ea, eb] := by
    rcases l' with _ | ⟨ea, _ | ⟨eb, _ | _⟩⟩ <;> simp at hl'e
    exact ⟨ea, eb, rfl⟩
  have hae : a = toMerged ea := by simpa using congrArg (fun l => l.get? 0) hl'e
  have hbe : b = toMerged eb := by simpa using congrArg (fun l => l.get? 1) hl'e
  have hmem_a : ea ∈ fusionEntries 60 lists :=
    (List.perm_insertionSort rrfRel _).subset (hl's.subset (by simp))
  have hmem_b : eb ∈ fusionEntries 60 lists :=
    (List.perm_insertionSort rrfRel _).subset (hl's.subset (by simp))
  have hida : a.chunk_id = ea.chunk_id := by
    rw [hae]
    exact first_chunk_id_fusionEntries 60 lists ea hmem_a
  have hidb : b.chunk_id = eb.chunk_id := by
    rw [hbe]
    exact first_chunk_id_fusionEntries 60 lists eb hmem_b
  have hne_ids : ea.chunk_id ≠ eb.chunk_id := by
    rw [← hida, ← hidb]; exact hne
  have hne_e : ea ≠ eb := fun h => hne_ids (h ▸ rfl)
  have hscore : ea.score = eb.score := by
    have h1 : a.similarity = ea.score := by rw [hae]; rfl
    have h2 : b.similarity = eb.score := by rw [hbe]; rfl
    rw [← h1, ← h2, hsim]
  have hnod : (entryIds (fusionEntries 60 lists)).Nodup :=
    nodup_entryIds_fusionEntries 60 lists
  have hmema : ea.chunk_id ∈ allIds lists := by
    have hx : ea.chunk_id ∈ entryIds (fusionEntries 60 lists) :=
      List.mem_map_of_mem RrfEntry.chunk_id hmem_a
    rw [entryIds_fusionEntries] at hx
    exact ((mem_newIds _ _ _).mp hx).1
  have hmemb : eb.chunk_id ∈ allIds lists := by
    have hx : eb.chunk_id ∈ entryIds (fusionEntries 60 lists) :=
      List.mem_map_of_mem RrfEntry.chunk_id hmem_b
    rw [entryIds_fusionEntries] at hx
    exact ((mem_newIds _ _ _).mp hx).1
  rw [hida, hidb]
  rcases sublist_pair_of_mem hmem_a hmem_b hne_e with hpair | hpair
  · have hidsub : [ea.chunk_id, eb.chunk_id].Sublist (entryIds (fusionEntries 60 lists)) := by
      simpa [entryIds] using hpair.map RrfEntry.chunk_id
    have hlt := firstIndex_lt_of_sublist hnod hidsub
    rw [entryIds_fusionEntries] at hlt
    rcases lt_trichotomy (firstIndex ea.chunk_id (allIds lists))
        (firstIndex eb.chunk_id (allIds lists)) with h1 | h1 | h1
    · exact h1
    · exact absurd (firstIndex_inj hmema hmemb h1) hne_ids
    · have := firstIndex_newIds (fun h => hne_ids h.symm) (allIds lists) []
        (by simp) (by simp) hmemb hmema h1
      omega
  · have hrel : rrfRel eb ea := le_of_eq hscore
    have hpw : ([eb, ea]).Pairwise rrfRel := by
      simp [List.pairwise_cons, hrel]
    have hsub2 : [eb, ea].Sublist (List.insertionSort rrfRel (fusionEntries 60 lists)) :=
      List.sublist_insertionSort hpw hpair
    have hsrtnod : ((List.insertionSort rrfRel (fusionEntries 60 lists)).map
        RrfEntry.chunk_id).Nodup := by
      have hperm : List.Perm
          ((List.insertionSort rrfRel (fusionEntries 60 lists)).map RrfEntry.chunk_id)
          (entryIds (fusionEntries 60 lists)) :=
        (List.perm_insertionSort rrfRel _).map _
      exact hperm.nodup_iff.mpr hnod
    have l1 := firstIndex_lt_of_sublist hsrtnod
      (by simpa using hl's.map RrfEntry.chunk_id)
    have l2 := firstIndex_lt_of_sublist hsrtnod
      (by simpa using hsub2.map RrfEntry.chunk_id)
    omega

/-! ## Claim theorems -/

/-- C1 (counterexample): in the concrete scenario — vector branch
`[A, B, C]`, text branch `[B, D]`, `k = 60` — the fused score of `B` is not
`1/60 + 1/60`: `B` sits at rank 1 of the vector branch, so it accumulates
`1/61 + 1/60`. -/
theorem rrf_scenario_b_score_counterexample :
    ¬ (fusedScore "B" [[resA, resB, resC], [resBtext, resD]] = 1 / 60 + 1 / 60) := by
  have h : fusedScore "B" [[resA, resB, resC], [resBtext, resD]] = 121 / 3660 := by
    simp +decide [fusedScore, fusionEntries, processPairs, branchPairs, processPair,
      bumpScore, scoreOf, findEntry, mkChunk, resA, resB, resC, resBtext, resD,
      List.enum, List.enumFrom]
    norm_num
  rw [h]
  norm_num

/-- C1 (amended): in the concrete scenario the fused scores are `A = 1/60`,
`C = 1/62`, `D = 1/61` and `B = 1/61 + 1/60` (not `1/60 + 1/60`), and the
final hybrid result for `match_count = 4` is ordered `B, A, D, C` as the
claim states. -/
theorem rrf_scenario_amended :
    fusedScore "A" [[resA, resB, resC], [resBtext, resD]] = 1 / 60
    ∧ fusedScore "C" [[resA, resB, resC], [resBtext, resD]] = 1 / 62
    ∧ fusedScore "D" [[resA, resB, resC], [resBtext, resD]] = 1 / 61
    ∧ fusedScore "B" [[resA, resB, resC], [resBtext, resD]] = 1 / 61 + 1 / 60
    ∧ (_hybrid_search (.ok [resA, resB, resC]) (.ok [resBtext, resD]) 4).map
        SearchResult.chunk_id = ["B", "A", "D", "C"] := by
  refine ⟨?_, ?_, ?_, ?_, ?_⟩
  · simp +decide [fusedScore, fusionEntries, processPairs, branchPairs, processPair,
      bumpScore, scoreOf, findEntry, mkChunk, resA, resB, resC, resBtext, resD,
      List.enum, List.enumFrom]
  · simp +decide [fusedScore, fusionEntries, processPairs, branchPairs, processPair,
      bumpScore, scoreOf, findEntry, mkChunk, resA, resB, resC, resBtext, resD,
      List.enum, List.enumFrom]
    norm_num
  · simp +decide [fusedScore, fusionEntries, processPairs, branchPairs, processPair,
      bumpScore, scoreOf, findEntry, mkChunk, resA, resB, resC, resBtext, resD,
      List.enum, List.enumFrom]
    norm_num
  · simp +decide [fusedScore, fusionEntries, processPairs, branchPairs, processPair,
      bumpScore, scoreOf, findEntry, mkChunk, resA, resB, resC, resBtext, resD,
      List.enum, List.enumFrom]
    norm_num
  · simp +decide [_hybrid_search, _semantic_search, _text_search, _reciprocal_rank_fusion,
      fusionEntries, processPairs, branchPairs, processPair, bumpScore,
      semanticNumCandidates, List.insertionSort, List.orderedInsert, rrfRel, toMerged,
      mkChunk, resA, resB, resC, resBtext, resD, List.enum, List.enumFrom]
    norm_num [List.orderedInsert, rrfRel, toMerged, mkChunk, resA, resB, resC, resBtext,
      resD]

/-- C2: a chunk id occurring exactly at rank `j1` of the first branch list
and exactly at rank `j2` of the second receives the fused score
`1/(60+j1) + 1/(60+j2)`, strictly greater than either individual
contribution. -/
theorem rrf_duplicate_boost (l1 l2 : List SearchResult) (c : String) (j1 j2 : ℕ)
    (hj1 : j1 < l1.length) (hc1 : (l1.get ⟨j1, hj1⟩).chunk_id = c)
    (hn1 : (l1.map SearchResult.chunk_id).Nodup)
    (hj2 : j2 < l2.length) (hc2 : (l2.get ⟨j2, hj2⟩).chunk_id = c)
    (hn2 : (l2.map SearchResult.chunk_id).Nodup) :
    fusedScore c [l1, l2] = 1 / (60 + (j1 : ℚ)) + 1 / (60 + (j2 : ℚ))
    ∧ 1 / (60 + (j1 : ℚ)) < fusedScore c [l1, l2]
    ∧ 1 / (60 + (j2 : ℚ)) < fusedScore c [l1, l2] := by
  have e1 : l1.enum = l1.enumFrom 0 := rfl
  have e2 : l2.enum = l2.enumFrom 0 := rfl
  have h1 : rrfSum 60 c l1.enum = 1 / ((60 : ℚ) + 0 + j1) := by
    rw [e1]; exact rrfSum_enumFrom_single 60 l1 0 j1 hj1 hn1 hc1
  have h2 : rrfSum 60 c l2.enum = 1 / ((60 : ℚ) + 0 + j2) := by
    rw [e2]; exact rrfSum_enumFrom_single 60 l2 0 j2 hj2 hn2 hc2
  have hav : fusedScore c [l1, l2] = 1 / (60 + (j1 : ℚ)) + 1 / (60 + (j2 : ℚ)) := by
    rw [fusedScore_two, h1, h2]
    norm_num
  have hp1 : 0 < 1 / (60 + (j1 : ℚ)) := by positivity
  have hp2 : 0 < 1 / (60 + (j2 : ℚ)) := by positivity
  refine ⟨hav, ?_, ?_⟩
  · rw [hav]; linarith
  · rw [hav]; linarith

/-- C2 (witness): a chunk at rank 0 of both branch lists gets fused score
`1/60 + 1/60 = 2/60`. -/
theorem rrf_duplicate_boost_witness :
    fusedScore "A" [[resA], [mkChunk "A" "other payload"]]
        = 1 / (60 + ((0 : ℕ) : ℚ)) + 1 / (60 + ((0 : ℕ) : ℚ))
    ∧ fusedScore "A" [[resA], [mkChunk "A" "other payload"]] = 2 / 60 := by
  have h := rrf_duplicate_boost [resA] [mkChunk "A" "other payload"] "A" 0 0
    (by decide) (by decide) (by decide) (by decide) (by decide) (by decide)
  refine ⟨h.1, ?_⟩
  rw [h.1]
  norm_num

/-- C3: for two branch lists with pairwise-distinct chunk ids the
untruncated fused result has exactly `m + n` entries; in general every
chunk id occurs at most once in the fused output; and when the fused,
sorted list is longer than `match_count`, `_hybrid_search` truncates it to
exactly `match_count` entries, keeping the leading (highest-scored)
prefix. -/
theorem fusion_count_and_truncation (l1 l2 : List SearchResult)
    (hn : ((l1 ++ l2).map SearchResult.chunk_id).Nodup)
    (semO textO : BranchOutcome) (mc : ℕ)
    (hlen : mc < (hybridMerged semO textO mc).length) :
    (_reciprocal_rank_fusion [l1, l2] 60).length = l1.length + l2.length
    ∧ (∀ (m1 m2 : List SearchResult),
        ((_reciprocal_rank_fusion [m1, m2] 60).map SearchResult.chunk_id).Nodup)
    ∧ _hybrid_search semO textO mc = (hybridMerged semO textO mc).take mc
    ∧ (_hybrid_search semO textO mc).length = mc := by
  have hids : allIds [l1, l2] = (l1 ++ l2).map SearchResult.chunk_id := by
    simp [allIds]
  have hlen1 : (_reciprocal_rank_fusion [l1, l2] 60).length = l1.length + l2.length := by
    rw [length_rrf, length_fusionEntries_of_nodup 60 [l1, l2] (by rw [hids]; exact hn),
      hids]
    simp
  have hcond : ¬((_semantic_search semO (mc * 2)).isEmpty
      && (_text_search textO (mc * 2)).isEmpty) = true := by
    intro hco
    rw [Bool.and_eq_true, List.isEmpty_iff, List.isEmpty_iff] at hco
    rw [hybridMerged, hco.1, hco.2] at hlen
    have hz : _reciprocal_rank_fusion [([] : List SearchResult), []] 60 = [] := rfl
    rw [hz] at hlen
    simp at hlen
  have heq : _hybrid_search semO textO mc = (hybridMerged semO textO mc).take mc := by
    rw [_hybrid_search, hybridMerged]
    simp only [if_neg hcond]
  refine ⟨hlen1, fun m1 m2 => nodup_ids_rrf [m1, m2] 60, heq, ?_⟩
  rw [heq, List.length_take]
  omega

/-- C3 (witness): concrete two-singleton instantiation with disjoint ids,
`match_count = 1`. -/
theorem fusion_count_and_truncation_witness :
    (_reciprocal_rank_fusion [[resA], [resD]] 60).length = 2
    ∧ _hybrid_search (.ok [resA]) (.ok [resD]) 1
        = (hybridMerged (.ok [resA]) (.ok [resD]) 1).take 1
    ∧ (_hybrid_search (.ok [resA]) (.ok [resD]) 1).length = 1 := by
  have hlen : 1 < (hybridMerged (.ok [resA]) (.ok [resD]) 1).length := by
    rw [hybridMerged, length_rrf]
    simp +decide [fusionEntries, processPairs, branchPairs, processPair,
      _semantic_search, _text_search, semanticNumCandidates, resA, resD, mkChunk,
      List.enum, List.enumFrom]
  have h := fusion_count_and_truncation [resA] [resD] (by decide)
    (.ok [resA]) (.ok [resD]) 1 hlen
  exact ⟨by simpa using h.1, h.2.2.1, h.2.2.2⟩

/-- C4: the fused output is sorted by fused score in non-increasing order;
two distinct chunks with exactly equal fused scores appear in the order of
their first appearance across the input lists; and fusing identical input
twice yields an identical output sequence. -/
theorem rrf_sort_stable_deterministic (lists : List (List SearchResult))
    (a b : SearchResult)
    (hab : [a, b].Sublist (_reciprocal_rank_fusion lists 60))
    (hsim : a.similarity = b.similarity) (hne : a.chunk_id ≠ b.chunk_id) :
    (_reciprocal_rank_fusion lists 60).Pairwise
      (fun x y => y.similarity ≤ x.similarity)
    ∧ firstIndex a.chunk_id (allIds lists) < firstIndex b.chunk_id (allIds lists)
    ∧ _reciprocal_rank_fusion lists 60 = _reciprocal_rank_fusion lists 60 :=
  ⟨pairwise_rrf lists 60, stable_of_tie lists hab hsim hne, rfl⟩

/-- C4 (witness): two singleton branches produce the exact tie `1/60`
against `1/60`; the chunk from the first-dispatched branch stays first. -/
theorem rrf_sort_stable_deterministic_witness :
    (_reciprocal_rank_fusion [[resA], [resE]] 60).Pairwise
      (fun x y => y.similarity ≤ x.similarity)
    ∧ firstIndex mergedA.chunk_id (allIds [[resA], [resE]])
        < firstIndex mergedE.chunk_id (allIds [[resA], [resE]])
    ∧ _reciprocal_rank_fusion [[resA], [resE]] 60
        = _reciprocal_rank_fusion [[resA], [resE]] 60 := by
  have hout : _reciprocal_rank_fusion [[resA], [resE]] 60 = [mergedA, mergedE] := by
    simp +decide [_reciprocal_rank_fusion, fusionEntries, processPairs, branchPairs,
      processPair, bumpScore, List.insertionSort, List.orderedInsert, rrfRel, toMerged,
      mkChunk, resA, resE, mergedA, mergedE, List.enum, List.enumFrom]
  exact rrf_sort_stable_deterministic [[resA], [resE]] mergedA mergedE
    (by rw [hout]) rfl (by decide)

/-- Helper: a `match_count` above the configured maximum yields the same
response as passing the maximum itself (shared by the clamping claims). -/
theorem skb_eq_clamped (query : String) (t : String) (o1 o2 : BranchOutcome)
    (mc : ℤ) (h : (max_match_count : ℤ) < mc) :
    search_knowledge_base query mc t o1 o2
      = search_knowledge_base query (max_match_count : ℤ) t o1 o2 := by
  have h' : (50 : ℤ) < mc := by
    simpa [max_match_count] using h
  have hc : clamped_match_count mc = (max_match_count : ℤ) := by
    simp only [clamped_match_count, max_match_count]
    omega
  have hc2 : clamped_match_count (max_match_count : ℤ) = (max_match_count : ℤ) := by
    simp only [clamped_match_count, max_match_count]
    omega
  have hm1 : ¬(mc ≤ 0) := by omega
  have hm2 : ¬((max_match_count : ℤ) ≤ 0) := by
    simp only [max_match_count]
    omega
  simp [search_knowledge_base, hc, hc2, hm1, hm2]

/-- C5: every classified branch failure makes the branch return the empty
list; with both branches failing, `_hybrid_search` returns the empty
sequence and `search_knowledge_base` (valid hybrid call) returns the
no-results message — all functions remain total, so nothing propagates. -/
theorem branch_failure_and_empty (semO textO : BranchOutcome)
    (hs : semO.isOk = false) (ht : textO.isOk = false)
    (n mc : ℕ) (query : String) (mci : ℤ)
    (hq : isBlank query = false) (hmci : 0 < mci) :
    _semantic_search semO n = []
    ∧ _text_search textO n = []
    ∧ _hybrid_search semO textO mc = []
    ∧ search_knowledge_base query mci "hybrid" semO textO = .noResults
    ∧ render_response (search_knowledge_base query mci "hybrid" semO textO)
        = "No relevant information found in the knowledge base." := by
  have h1 : ∀ m, _semantic_search semO m = [] := by
    intro m
    cases semO <;> simp_all [_semantic_search, BranchOutcome.isOk]
  have h2 : ∀ m, _text_search textO m = [] := by
    intro m
    cases textO <;> simp_all [_text_search, BranchOutcome.isOk]
  have h3 : ∀ m, _hybrid_search semO textO m = [] := by
    intro m
    simp [_hybrid_search, h1, h2]
  have hm : ¬(mci ≤ 0) := by omega
  have h4 : search_knowledge_base query mci "hybrid" semO textO = .noResults := by
    simp +decide [search_knowledge_base, hq, hm, h1, h2, h3]
  exact ⟨h1 n, h2 n, h3 mc, h4, by rw [h4]; rfl⟩

/-- C5 (witness): an embedding auth failure on the vector branch plus an
index `OperationFailure` on the text branch, with a valid query. -/
theorem branch_failure_and_empty_witness :
    _semantic_search .embeddingAuthError 3 = []
    ∧ _text_search .operationFailure 3 = []
    ∧ _hybrid_search .embeddingAuthError .operationFailure 2 = []
    ∧ search_knowledge_base "chests" 5 "hybrid" .embeddingAuthError .operationFailure
        = .noResults
    ∧ render_response
        (search_knowledge_base "chests" 5 "hybrid" .embeddingAuthError .operationFailure)
        = "No relevant information found in the knowledge base." :=
  branch_failure_and_empty .embeddingAuthError .operationFailure rfl rfl 3 2 "chests" 5
    (by decide) (by decide)

/-- C6 (counterexample): `match_count = 51` violates "bounded by the
configured maximum 50", yet `search_knowledge_base` does not return a
validation-classified error for it — it proceeds (here to the no-results
path, both branches failing). -/
theorem skb_over_max_not_rejected_counterexample :
    isValidationError (search_knowledge_base "chests" 51 "hybrid"
      .mongoConnectionError .mongoConnectionError) = false := by
  decide

/-- C6 (amended): the façade fail-fasts, independently of both branch
oracles, on a whitespace-only query, a non-positive `match_count`, and an
unrecognized `search_type`; a `match_count` above `settings.max_match_count`
is not rejected but clamped — the response equals the one for
`match_count = 50`. -/
theorem skb_validation_amended (query : String) (mc : ℤ) (t : String)
    (o1 o2 : BranchOutcome) :
    (isBlank query = true →
      search_knowledge_base query mc t o1 o2 = .emptyQueryError)
    ∧ (isBlank query = false → mc ≤ 0 →
      search_knowledge_base query mc t o1 o2 = .nonPositiveCountError)
    ∧ (isBlank query = false → 0 < mc →
        t ≠ "hybrid" → t ≠ "semantic" → t ≠ "text" →
      search_knowledge_base query mc t o1 o2 = .unknownTypeError)
    ∧ ((max_match_count : ℤ) < mc →
      search_knowledge_base query mc t o1 o2
        = search_knowledge_base query (max_match_count : ℤ) t o1 o2) := by
  refine ⟨?_, ?_, ?_, skb_eq_clamped query t o1 o2 mc⟩
  · intro h
    simp [search_knowledge_base, h]
  · intro h hm
    simp [search_knowledge_base, h, hm]
  · intro h hm h1 h2 h3
    simp [search_knowledge_base, h, show ¬(mc ≤ 0) by omega, h1, h2, h3]

/-- C6 (witness): the three validation rejections at concrete inputs, and
the clamping (not rejection) of `match_count = 51`. -/
theorem skb_validation_amended_witness :
    search_knowledge_base "   " 5 "hybrid" .otherError .otherError = .emptyQueryError
    ∧ search_knowledge_base "chests" (-2) "hybrid" .otherError .otherError
        = .nonPositiveCountError
    ∧ search_knowledge_base "chests" 5 "fuzzy" .otherError .otherError
        = .unknownTypeError
    ∧ search_knowledge_base "chests" 51 "hybrid" .otherError .otherError
        = search_knowledge_base "chests" 50 "hybrid" .otherError .otherError :=
  ⟨(skb_validation_amended "   " 5 "hybrid" .otherError .otherError).1 (by decide),
    (skb_validation_amended "chests" (-2) "hybrid" .otherError .otherError).2.1
      (by decide) (by decide),
    (skb_validation_amended "chests" 5 "fuzzy" .otherError .otherError).2.2.1
      (by decide) (by decide) (by decide) (by decide) (by decide),
    (skb_validation_amended "chests" 51 "hybrid" .otherError .otherError).2.2.2
      (by decide)⟩

/-- C7 (counterexample): with `match_count = 1`, hybrid fetch count
`1 × 2 = 2`, a text index holding five candidates makes `_text_search`
return 4 results — more than `fetch_count` — because its internal
`match_count * 2` limit doubles the already-doubled fetch count. -/
theorem text_branch_exceeds_fetch_counterexample :
    ¬ ((_text_search (.ok [resA, resB, resC, resD, resE]) (1 * 2)).length ≤ 1 * 2) := by
  decide

/-- C7 (amended): in hybrid mode both branches are invoked with
`fetch_count = match_count × 2`; the semantic branch contributes at most
`fetch_count` candidates, but the text branch applies its internal `× 2`
limit on top of `fetch_count` and contributes up to `match_count × 4`
candidates (exactly `min (match_count × 4) (index size)` on success). -/
theorem hybrid_branch_volume_amended (mc : ℕ) (o : BranchOutcome)
    (docs : List SearchResult) :
    (_semantic_search o (mc * 2)).length ≤ mc * 2
    ∧ (_text_search o (mc * 2)).length ≤ mc * 4
    ∧ (_text_search (.ok docs) (mc * 2)).length = min (mc * 4) docs.length := by
  refine ⟨?_, ?_, ?_⟩
  · cases o <;> simp [_semantic_search, List.length_take]
  · cases o <;> simp [_text_search, List.length_take]
    omega
  · simp [_text_search, List.length_take]
    omega

/-- C8 (counterexample): the `$vectorSearch` candidate pool is the fixed
constant 100, which is not strictly larger than the reachable hybrid fetch
count `100` (`match_count = 50` clamped maximum, doubled). -/
theorem semantic_pool_not_strictly_larger_counterexample :
    ¬ (100 < semanticNumCandidates) := by
  decide

/-- C8 (amended): the vector branch requests the fixed candidate pool
`numCandidates = 100` — strictly larger than `fetch_count` only when
`fetch_count < 100` — and always truncates its results to at most
`fetch_count`; every façade-reachable fetch count (clamped `match_count`
doubled) is at most the pool size. -/
theorem semantic_pool_and_truncation_amended (fc : ℕ) (o : BranchOutcome) :
    (fc < 100 → fc < semanticNumCandidates)
    ∧ (_semantic_search o fc).length ≤ fc
    ∧ (∀ mcl : ℤ, (clamped_match_count mcl).toNat * 2 ≤ semanticNumCandidates) := by
  refine ⟨?_, ?_, ?_⟩
  · intro h
    simpa [semanticNumCandidates] using h
  · cases o <;> simp [_semantic_search, List.length_take]
  · intro mcl
    simp [clamped_match_count, max_match_count, semanticNumCandidates]
    omega

/-- C8 (witness): at `fetch_count = 99 < 100` the pool is strictly larger,
and truncation bounds the output by 99. -/
theorem semantic_pool_and_truncation_amended_witness :
    99 < semanticNumCandidates
    ∧ (_semantic_search (.ok [resA]) 99).length ≤ 99 :=
  ⟨(semantic_pool_and_truncation_amended 99 (.ok [resA])).1 (by decide),
    (semantic_pool_and_truncation_amended 99 (.ok [resA])).2.1⟩

/-- C9: every emitted fused result carries the `document_id`, `content`,
`metadata`, `document_title` and `document_source` of the first occurrence
of its chunk id across the branch lists in dispatch order (vector list
before text list), with only the score field replaced by the accumulated
RRF score. -/
theorem rrf_first_occurrence_fields (l1 l2 : List SearchResult) (r : SearchResult)
    (hr : r ∈ _reciprocal_rank_fusion [l1, l2] 60) :
    ∃ r0, firstWithId r.chunk_id (l1 ++ l2) = some r0
      ∧ r.chunk_id = r0.chunk_id
      ∧ r.document_id = r0.document_id
      ∧ r.content = r0.content
      ∧ r.metadata = r0.metadata
      ∧ r.document_title = r0.document_title
      ∧ r.document_source = r0.document_source
      ∧ r.similarity = fusedScore r.chunk_id [l1, l2] := by
  rw [_reciprocal_rank_fusion] at hr
  obtain ⟨e, he, heq⟩ := List.mem_map.mp hr
  have hees : e ∈ fusionEntries 60 [l1, l2] :=
    (List.perm_insertionSort rrfRel _).subset he
  have hid : e.first.chunk_id = e.chunk_id :=
    first_chunk_id_fusionEntries 60 [l1, l2] e hees
  have hnod := nodup_entryIds_fusionEntries 60 [l1, l2]
  have hfind : findEntry e.chunk_id (fusionEntries 60 [l1, l2]) = some e :=
    findEntry_eq_some_self hnod hees
  have hfirst : firstOf e.chunk_id (fusionEntries 60 [l1, l2]) = some e.first := by
    simp [firstOf, hfind]
  have hfw : firstWithId e.chunk_id (l1 ++ l2) = some e.first := by
    have h0 : firstOf e.chunk_id ([] : List RrfEntry) = none := rfl
    have hsteps := firstOf_processPairs_of_none 60 (branchPairs [l1, l2]) h0
    rw [← fusionEntries, hfirst] at hsteps
    rw [branchPairs_map_snd] at hsteps
    have hflat : ([l1, l2] : List (List SearchResult)).flatten = l1 ++ l2 := by simp
    rw [hflat] at hsteps
    exact hsteps.symm
  have hrid : r.chunk_id = e.chunk_id := by
    rw [← heq]
    exact hid
  refine ⟨e.first, by rw [hrid]; exact hfw, ?_, ?_, ?_, ?_, ?_, ?_, ?_⟩
  · rw [hrid, hid]
  · rw [← heq]; rfl
  · rw [← heq]; rfl
  · rw [← heq]; rfl
  · rw [← heq]; rfl
  · rw [← heq]; rfl
  · rw [hrid, fusedScore, scoreOf, hfind, ← heq]
    rfl

/-- C9 (witness): the single fused result of a one-element vector branch is
`resA` with its score replaced by `1/60`. -/
theorem rrf_first_occurrence_fields_witness :
    ∃ r0, firstWithId mergedA.chunk_id ([resA] ++ []) = some r0
      ∧ mergedA.chunk_id = r0.chunk_id
      ∧ mergedA.document_id = r0.document_id
      ∧ mergedA.content = r0.content
      ∧ mergedA.metadata = r0.metadata
      ∧ mergedA.document_title = r0.document_title
      ∧ mergedA.document_source = r0.document_source
      ∧ mergedA.similarity = fusedScore mergedA.chunk_id [[resA], []] := by
  have hout : _reciprocal_rank_fusion [[resA], []] 60 = [mergedA] := by
    simp +decide [_reciprocal_rank_fusion, fusionEntries, processPairs, branchPairs,
      processPair, bumpScore, List.insertionSort, List.orderedInsert, rrfRel, toMerged,
      mkChunk, resA, mergedA, List.enum, List.enumFrom]
  exact rrf_first_occurrence_fields [resA] [] mergedA (by rw [hout]; simp)

/-- C10: a `match_count` above `settings.max_match_count = 50` is not
rejected: the façade clamps it to `min(max(1, match_count), 50) = 50` and
behaves exactly as if `match_count = 50` had been passed, never returning
the count-validation error. -/
theorem skb_clamps_large_count (query : String) (t : String)
    (o1 o2 : BranchOutcome) (mc : ℤ) (h : (max_match_count : ℤ) < mc) :
    clamped_match_count mc = (max_match_count : ℤ)
    ∧ search_knowledge_base query mc t o1 o2
        = search_knowledge_base query (max_match_count : ℤ) t o1 o2
    ∧ search_knowledge_base query mc t o1 o2 ≠ .nonPositiveCountError := by
  have h' : (50 : ℤ) < mc := by
    simpa [max_match_count] using h
  have hc : clamped_match_count mc = (max_match_count : ℤ) := by
    simp only [clamped_match_count, max_match_count]
    omega
  refine ⟨hc, skb_eq_clamped query t o1 o2 mc h, ?_⟩
  have hm : ¬(mc ≤ 0) := by omega
  rw [search_knowledge_base]
  split_ifs <;> simp <;> split_ifs <;> simp

/-- C10 (witness): `match_count = 51` with both oracles failing clamps to
50 and is not rejected. -/
theorem skb_clamps_large_count_witness :
    clamped_match_count 51 = (max_match_count : ℤ)
    ∧ search_knowledge_base "chests" 51 "hybrid" .mongoServiceError .mongoServiceError
        = search_knowledge_base "chests" (max_match_count : ℤ) "hybrid"
            .mongoServiceError .mongoServiceError
    ∧ search_knowledge_base "chests" 51 "hybrid" .mongoServiceError .mongoServiceError
        ≠ .nonPositiveCountError :=
  skb_clamps_large_count "chests" "hybrid" .mongoServiceError .mongoServiceError 51
    (by decide)

end ClashGPT
